import Mathlib

/-!
Shallow embedding of the `idencoder` package of brnt/idencoder-go
(file src/main.go, package `idencoder`), together with theorems about the
claims of its specification.

Conventions of the embedding:
* Go `uint64` values are `Nat` with explicit wrapping modulo `W = 2 ^ 64`
  where the Go arithmetic wraps (unsigned subtraction in `leftPad`,
  multiplication and addition in `debase`, shifts in `scramble`).
* Go byte strings are `List Nat` (one entry per byte).
* Code that can panic is embedded as an `Option`-returning function and a
  panic is `none`: `times` (`make([]byte, n)` with `n` above the maximum
  slice length), `checksum` (index out of range or modulus zero),
  `Decode` on the empty string (`b[1:]` on an empty slice).
-/

namespace Idencoder

/-- The modulus of Go `uint64` arithmetic. -/
def W : Nat := 2 ^ 64

/-- Embeds the struct `IDEncoder` of src/main.go: an alphabet of bytes, the
block size, and the checksum modulus. -/
structure IDEncoder where
  Alphabet : List Nat
  BlockSize : Nat
  Checksum : Nat

/-- Embeds `DefaultAlphabet = "3fq4rv5z7hsdamn8bpygw96j2cetxuk"` as its list
of byte values. -/
def DefaultAlphabet : List Nat :=
  "3fq4rv5z7hsdamn8bpygw96j2cetxuk".data.map Char.toNat

/-- Embeds `DefaultBlockSize = 24`. -/
def DefaultBlockSize : Nat := 24

/-- Embeds `DefaultChecksum = 29`. -/
def DefaultChecksum : Nat := 29

/-- Embeds `MinLength = 5`. -/
def MinLength : Nat := 5

/-- The `IDEncoder` built by the command-line layer and the README sample:
default alphabet, block size and checksum modulus. -/
def defaultEncoder : IDEncoder :=
  { Alphabet := DefaultAlphabet
    BlockSize := DefaultBlockSize
    Checksum := DefaultChecksum }

/-- A valid configuration (duplicate-free two-symbol alphabet, modulus 2,
block size 0) whose alphabet bytes are not ASCII, so that the Go
conversion `string(checksum(n))` emits two UTF-8 bytes for the head. -/
def nonAsciiEncoder : IDEncoder :=
  { Alphabet := [194, 130]
    BlockSize := 0
    Checksum := 2 }

/-- Embeds `uint64(bytes.IndexByte(alphabet, val))` from `debase`:
`bytes.IndexByte` yields the first index of the byte, or `-1` when the byte
is absent, and the `uint64` conversion turns `-1` into `2 ^ 64 - 1`. -/
def goIndexByte (l : List Nat) (v : Nat) : Nat :=
  if v ∈ l then l.indexOf v else W - 1

/-- Embeds the Go conversion `string(b)` for a byte `b`: Go converts the
integer to the UTF-8 encoding of the code point, which is one byte below
128 and two bytes from 128 up (alphabet bytes are below 256). -/
def goStringOfByte (b : Nat) : List Nat :=
  if b < 128 then [b] else [192 + b / 64, 128 + b % 64]

/-- Embeds `times` from src/main.go: `make([]byte, n)` filled with `c`.
`make` panics (`none`) when `n` exceeds the maximum slice length,
the maximum value of Go `int`. -/
def times (c n : Nat) : Option (List Nat) :=
  if n < 2 ^ 63 then some (List.replicate n c) else none

/-- Go `uint64` subtraction `a - b`, wrapping modulo `2 ^ 64`. -/
def usub64 (a b : Nat) : Nat := (a % W + (W - b % W)) % W

/-- Embeds `leftPad` from src/main.go: prepend `length - len(str)` copies of
`pad`, where the subtraction is Go `uint64` arithmetic and therefore wraps
when `len(str) > length`, making `times` panic. -/
def leftPad (str : List Nat) (length pad : Nat) : Option (List Nat) :=
  (times pad (usub64 length str.length)).map (fun p => p ++ str)

/-- Fuel-driven helper for `natDigits`, structurally recursive so that the
kernel can evaluate it on concrete inputs. -/
def natDigitsF (K : Nat) : Nat → Nat → List Nat
  | 0, _ => []
  | fuel + 1, x => if 2 ≤ K ∧ 0 < x then natDigitsF K fuel (x / K) ++ [x % K] else []

/-- The digit loop of `enbase` from src/main.go: the base-`K` digits of `x`,
most significant first, the empty list for `x = 0`.  The Go loop
`for x > 0 { c := x % n; x = x / n; prepend c }` is this function when
`2 ≤ K`; for `K = 0` the Go code panics on division by zero and for
`K = 1` it diverges, cases outside every claim (all claims assume an
alphabet of at least two symbols). -/
def natDigits (K x : Nat) : List Nat := natDigitsF K x x

/-- Embeds `enbase` from src/main.go: map the base-`K` digits of `x` through
the alphabet and left-pad with `alphabet[0]` to `minLength`. -/
def IDEncoder.enbase (i : IDEncoder) (x minLength : Nat) : Option (List Nat) :=
  if 2 ≤ i.Alphabet.length then
    leftPad ((natDigits i.Alphabet.length x).map fun c => i.Alphabet.getD c 0)
      minLength (i.Alphabet.getD 0 0)
  else none

/-- Embeds `debase` from src/main.go: fold left with
`result = result * len(alphabet) + uint64(IndexByte(alphabet, val))` in
wrapping `uint64` arithmetic. -/
def IDEncoder.debase (i : IDEncoder) (x : List Nat) : Nat :=
  x.foldl
    (fun result v => (result * i.Alphabet.length % W + goIndexByte i.Alphabet v) % W)
    0

/-- Embeds `checksum` from src/main.go: `alphabet[n % modulus]`, a panic
(`none`) when the modulus is zero (division by zero) or the index is out of
range. -/
def IDEncoder.checksum (i : IDEncoder) (n : Nat) : Option Nat :=
  if i.Checksum = 0 then none else i.Alphabet[n % i.Checksum]?

/-- Embeds `scramble` from src/main.go:
`mask := uint64((1 << BlockSize) - 1)`, `result := n & ^mask`, then for each
`bit` in `[0, BlockSize)`, if bit `bit` of `n` is set, set bit
`BlockSize - bit - 1` of the result.  Shift results are reduced modulo
`2 ^ 64` exactly where Go `uint64` shifts wrap. -/
def IDEncoder.scramble (i : IDEncoder) (n : Nat) : Nat :=
  let B := i.BlockSize
  let mask := (2 ^ B % W + (W - 1)) % W
  let init := n &&& ((W - 1) ^^^ mask)
  (List.range B).foldl
    (fun result bit =>
      if n &&& (2 ^ bit % W) ≠ 0 then result ||| (2 ^ (B - bit - 1) % W) else result)
    init

/-- Embeds `Encode` from src/main.go:
`string(checksum(n)) + enbase(scramble(n), minLength)` paired with the
constant success flag `true`; `none` when a sub-operation panics. -/
def IDEncoder.Encode (i : IDEncoder) (n minLength : Nat) :
    Option (List Nat × Bool) := do
  let c ← i.checksum n
  let body ← i.enbase (i.scramble n) minLength
  pure (goStringOfByte c ++ body, true)

/-- Embeds `Decode` from src/main.go: `b[1:]` panics on the empty string
(`none`); otherwise `value := scramble(debase(tail))` and the flag is the
comparison `checksum(value) == b[0]`. -/
def IDEncoder.Decode (i : IDEncoder) (s : List Nat) : Option (Nat × Bool) :=
  match s with
  | [] => none
  | b0 :: rest =>
    let value := i.scramble (i.debase rest)
    (i.checksum value).map fun c => (value, c == b0)

/-! ### Properties of `scramble` -/

/-- The bit-setting loop of `scramble`, characterized bit by bit: a bit `k`
of the result is set iff it was set in the start value or some loop index
`bit` has bit `bit` of `n` set and targets position `B - bit - 1 = k`. -/
theorem scrambleFold_testBit (n B : Nat) (hB : B ≤ 64) (l : List Nat) (r k : Nat) :
    (∀ b ∈ l, b < B) →
    ((l.foldl
      (fun result bit =>
        if n &&& (2 ^ bit % W) ≠ 0 then result ||| (2 ^ (B - bit - 1) % W) else result)
      r).testBit k)
    = (r.testBit k || l.any fun bit => n.testBit bit && decide (B - bit - 1 = k)) := by
  induction l generalizing r with
  | nil => intro _; simp
  | cons b l ih =>
    intro hl
    have hb : b < B := hl b (List.mem_cons_self b l)
    have hbW : 2 ^ b % W = 2 ^ b :=
      Nat.mod_eq_of_lt (Nat.pow_lt_pow_right (by omega) (by omega))
    have htW : 2 ^ (B - b - 1) % W = 2 ^ (B - b - 1) :=
      Nat.mod_eq_of_lt (Nat.pow_lt_pow_right (by omega) (by omega))
    simp only [List.foldl_cons, List.any_cons]
    rw [ih _ (fun x hx => hl x (List.mem_cons_of_mem b hx))]
    have hstep :
        ((if n &&& (2 ^ b % W) ≠ 0 then r ||| (2 ^ (B - b - 1) % W) else r).testBit k)
        = (r.testBit k || (n.testBit b && decide (B - b - 1 = k))) := by
      by_cases hc : n &&& (2 ^ b % W) ≠ 0
      · have hbit : n.testBit b = true := by
          by_contra hfalse
          rw [Bool.not_eq_true] at hfalse
          apply hc
          rw [hbW, Nat.and_two_pow, hfalse, Bool.toNat_false, Nat.zero_mul]
        rw [if_pos hc, Nat.testBit_or, htW, Nat.testBit_two_pow, hbit, Bool.true_and]
      · have h0 : n &&& (2 ^ b % W) = 0 := not_ne_iff.mp hc
        rw [hbW, Nat.and_two_pow] at h0
        have hbit : n.testBit b = false := by
          rcases Nat.mul_eq_zero.mp h0 with h | h
          · exact Bool.toNat_eq_zero.mp h
          · exact absurd h (Nat.two_pow_pos b).ne'
        rw [if_neg hc, hbit, Bool.false_and, Bool.or_false]
    rw [hstep, Bool.or_assoc]

/-- The loop of `scramble` keeps the accumulator below `2 ^ 64`. -/
theorem scrambleFold_lt (n B : Nat) (l : List Nat) (r : Nat) (hr : r < W) :
    (l.foldl
      (fun result bit =>
        if n &&& (2 ^ bit % W) ≠ 0 then result ||| (2 ^ (B - bit - 1) % W) else result)
      r) < W := by
  induction l generalizing r with
  | nil => exact hr
  | cons b l ih =>
    rw [List.foldl_cons]
    apply ih
    dsimp only
    by_cases hc : n &&& (2 ^ b % W) ≠ 0
    · rw [if_pos hc]
      exact Nat.or_lt_two_pow hr (Nat.mod_lt _ (by decide))
    · rwa [if_neg hc]

/-- The `uint64` mask computation of `scramble` gives `2 ^ B - 1` for every
block size below the word width. -/
theorem scramble_mask_eq (B : Nat) (hB : B < 64) :
    (2 ^ B % W + (W - 1)) % W = 2 ^ B - 1 := by
  have h2B : 2 ^ B < W := Nat.pow_lt_pow_right (by omega) hB
  have h1 : 1 ≤ 2 ^ B := Nat.one_le_two_pow
  have hW : 1 ≤ W := by decide
  rw [Nat.mod_eq_of_lt h2B, show 2 ^ B + (W - 1) = (2 ^ B - 1) + W by omega,
    Nat.add_mod_right, Nat.mod_eq_of_lt (by omega)]

/-- Bit-level characterization of `scramble`: for block size `B < 64` and
`n` in the `uint64` range, bit `k < B` of the result is bit `B - 1 - k` of
`n` and every other bit is passed through. -/
theorem scramble_testBit (i : Idencoder.IDEncoder) (n : Nat)
    (hB : i.BlockSize < 64) (hn : n < W) (k : Nat) :
    (i.scramble n).testBit k
      = if k < i.BlockSize then n.testBit (i.BlockSize - 1 - k) else n.testBit k := by
  have hW : W = 2 ^ 64 := rfl
  simp only [IDEncoder.scramble]
  rw [scramble_mask_eq i.BlockSize hB,
    scrambleFold_testBit n i.BlockSize (by omega) (List.range i.BlockSize) _ k
      (fun b hb => List.mem_range.mp hb)]
  have hinit : (n &&& ((W - 1) ^^^ (2 ^ i.BlockSize - 1))).testBit k
      = (n.testBit k && (decide (k < 64)).xor (decide (k < i.BlockSize))) := by
    rw [Nat.testBit_and, Nat.testBit_xor, hW, Nat.testBit_two_pow_sub_one,
      Nat.testBit_two_pow_sub_one]
  rw [hinit]
  by_cases hk : k < i.BlockSize
  · have hk64 : k < 64 := by omega
    rw [if_pos hk, decide_eq_true hk, decide_eq_true hk64, Bool.xor_self,
      Bool.and_false, Bool.false_or]
    cases hbit : n.testBit (i.BlockSize - 1 - k) with
    | false =>
      rw [List.any_eq_false]
      intro b hb
      have hbB : b < i.BlockSize := List.mem_range.mp hb
      by_cases he : i.BlockSize - b - 1 = k
      · have hbeq : b = i.BlockSize - 1 - k := by omega
        rw [hbeq, hbit]
        simp
      · simp [he]
    | true =>
      rw [List.any_eq_true]
      refine ⟨i.BlockSize - 1 - k, List.mem_range.mpr (by omega), ?_⟩
      rw [hbit, decide_eq_true
        (show i.BlockSize - (i.BlockSize - 1 - k) - 1 = k by omega)]
      rfl
  · have hany : (List.range i.BlockSize).any
        (fun bit => n.testBit bit && decide (i.BlockSize - bit - 1 = k)) = false := by
      rw [List.any_eq_false]
      intro b hb
      have hbB : b < i.BlockSize := List.mem_range.mp hb
      have hne : i.BlockSize - b - 1 ≠ k := by omega
      simp [hne]
    rw [hany, Bool.or_false, if_neg hk]
    by_cases hk64 : k < 64
    · rw [decide_eq_true hk64, decide_eq_false hk, Bool.xor_false, Bool.and_true]
    · have hnk : n.testBit k = false :=
        Nat.testBit_lt_two_pow (lt_of_lt_of_le (hW ▸ hn)
          (Nat.pow_le_pow_right (by omega) (by omega)))
      rw [decide_eq_false hk64, decide_eq_false hk, Bool.xor_false, Bool.and_false,
        hnk]

/-- `scramble` stays inside the `uint64` range. -/
theorem scramble_lt (i : Idencoder.IDEncoder) (n : Nat) (hn : n < W) :
    i.scramble n < W := by
  simp only [IDEncoder.scramble]
  exact scrambleFold_lt n i.BlockSize _ _
    (lt_of_le_of_lt Nat.and_le_left hn)

/-- `scramble` is an involution for any block size below the word width. -/
theorem scramble_involutive (i : Idencoder.IDEncoder) (n : Nat)
    (hB : i.BlockSize < 64) (hn : n < W) : i.scramble (i.scramble n) = n := by
  apply Nat.eq_of_testBit_eq
  intro k
  rw [scramble_testBit i _ hB (scramble_lt i n hn) k]
  by_cases hk : k < i.BlockSize
  · rw [if_pos hk, scramble_testBit i n hB hn,
      if_pos (by omega : i.BlockSize - 1 - k < i.BlockSize)]
    congr 1
    omega
  · rw [if_neg hk, scramble_testBit i n hB hn, if_neg hk]

/-- The loop of `scramble` does nothing when the input is `0`. -/
theorem scrambleFold_zero (B : Nat) (l : List Nat) (r : Nat) :
    (l.foldl
      (fun result bit =>
        if (0 : Nat) &&& (2 ^ bit % W) ≠ 0 then result ||| (2 ^ (B - bit - 1) % W)
        else result)
      r) = r := by
  induction l generalizing r with
  | nil => rfl
  | cons b l ih =>
    rw [List.foldl_cons]
    have hf : (if (0 : Nat) &&& (2 ^ b % W) ≠ 0 then r ||| (2 ^ (B - b - 1) % W)
        else r) = r := by
      rw [if_neg (by simp [Nat.zero_and])]
    rw [hf]
    exact ih r

/-- `scramble 0 = 0` for every block size. -/
theorem scramble_zero (i : Idencoder.IDEncoder) : i.scramble 0 = 0 := by
  simp only [IDEncoder.scramble]
  rw [scrambleFold_zero, Nat.zero_and]

/-! ### Properties of the digit loop, `enbase` and `debase` -/

/-- The fuel argument of `natDigitsF` does not matter once it is at least
the converted value. -/
theorem natDigitsF_stable (K : Nat) :
    ∀ f1 f2 x, x ≤ f1 → x ≤ f2 → natDigitsF K f1 x = natDigitsF K f2 x := by
  intro f1
  induction f1 with
  | zero =>
    intro f2 x hx1 _
    have hx0 : x = 0 := by omega
    subst hx0
    cases f2 with
    | zero => rfl
    | succ f2 => simp [natDigitsF]
  | succ f1 ih =>
    intro f2 x hx1 hx2
    cases f2 with
    | zero =>
      have hx0 : x = 0 := by omega
      subst hx0
      simp [natDigitsF]
    | succ f2 =>
      simp only [natDigitsF]
      by_cases h : 2 ≤ K ∧ 0 < x
      · have hdiv : x / K < x := Nat.div_lt_self h.2 (by omega)
        rw [if_pos h, if_pos h, ih f2 (x / K) (by omega) (by omega)]
      · rw [if_neg h, if_neg h]

/-- `natDigits` of `0` is the empty list (the Go loop body never runs). -/
theorem natDigits_zero (K : Nat) : natDigits K 0 = [] := rfl

/-- The recurrence of the digit loop: for positive input, the digits are
the digits of `x / K` followed by the last remainder `x % K`. -/
theorem natDigits_rec (K x : Nat) (hK : 2 ≤ K) (hx : 0 < x) :
    natDigits K x = natDigits K (x / K) ++ [x % K] := by
  cases x with
  | zero => omega
  | succ y =>
    show natDigitsF K (y + 1) (y + 1) = _
    rw [natDigitsF, if_pos ⟨hK, hx⟩]
    have hdiv : (y + 1) / K < y + 1 := Nat.div_lt_self hx (by omega)
    rw [natDigitsF_stable K y ((y + 1) / K) ((y + 1) / K) (by omega) (by omega)]
    rfl

/-- Every digit produced by the digit loop is below the base. -/
theorem natDigits_lt_base (K : Nat) (hK : 2 ≤ K) :
    ∀ x, ∀ d ∈ natDigits K x, d < K := by
  intro x
  induction x using Nat.strong_induction_on with
  | _ x ih =>
    intro d hd
    rcases Nat.eq_zero_or_pos x with h0 | hpos
    · subst h0
      simp [natDigits_zero] at hd
    · rw [natDigits_rec K x hK hpos] at hd
      rcases List.mem_append.mp hd with h | h
      · exact ih (x / K) (Nat.div_lt_self hpos (by omega)) d h
      · rw [List.mem_singleton.mp h]
        exact Nat.mod_lt x (by omega)

/-- The value of a most-significant-first digit list, starting from an
accumulator `r`: the fold `acc = acc * K + d`. -/
def foldVal (K : Nat) (l : List Nat) (r : Nat) : Nat :=
  l.foldl (fun acc d => acc * K + d) r

theorem foldVal_nil (K r : Nat) : foldVal K [] r = r := rfl

theorem foldVal_cons (K d r : Nat) (l : List Nat) :
    foldVal K (d :: l) r = foldVal K l (r * K + d) := rfl

theorem foldVal_append (K r : Nat) (l1 l2 : List Nat) :
    foldVal K (l1 ++ l2) r = foldVal K l2 (foldVal K l1 r) :=
  List.foldl_append _ _ _ _

/-- The accumulator never decreases along `foldVal` (for a positive base). -/
theorem le_foldVal (K : Nat) (hK : 1 ≤ K) :
    ∀ (l : List Nat) (r : Nat), r ≤ foldVal K l r := by
  intro l
  induction l with
  | nil => intro r; exact le_refl r
  | cons d l ih =>
    intro r
    rw [foldVal_cons]
    calc r ≤ r * K := Nat.le_mul_of_pos_right r (by omega)
    _ ≤ r * K + d := Nat.le_add_right _ _
    _ ≤ foldVal K l (r * K + d) := ih _

/-- The digit loop of `enbase` and the value fold are mutually inverse:
folding the digits of `x` back up yields `x`. -/
theorem foldVal_natDigits (K : Nat) (hK : 2 ≤ K) :
    ∀ x, foldVal K (natDigits K x) 0 = x := by
  intro x
  induction x using Nat.strong_induction_on with
  | _ x ih =>
    rcases Nat.eq_zero_or_pos x with h0 | hpos
    · subst h0
      rfl
    · rw [natDigits_rec K x hK hpos, foldVal_append,
        ih (x / K) (Nat.div_lt_self hpos (by omega)), foldVal_cons, foldVal_nil]
      calc x / K * K + x % K = K * (x / K) + x % K := by rw [Nat.mul_comm]
      _ = x := Nat.div_add_mod x K

/-- Leading zero digits contribute nothing to the folded value. -/
theorem foldVal_replicate_zero (K : Nat) :
    ∀ m, foldVal K (List.replicate m 0) 0 = 0 := by
  intro m
  induction m with
  | zero => rfl
  | succ m ih =>
    rw [List.replicate_succ, foldVal_cons, Nat.zero_mul, Nat.zero_add]
    exact ih

/-- On a duplicate-free alphabet, `IndexByte` recovers the index of any
in-range symbol. -/
theorem goIndexByte_getD (l : List Nat) (hnd : l.Nodup) (d : Nat)
    (hd : d < l.length) : goIndexByte l (l.getD d 0) = d := by
  have hget : l.getD d 0 = l[d] := by
    rw [List.getD_eq_getElem?_getD, List.getElem?_eq_getElem hd, Option.getD_some]
  have hmem : l.getD d 0 ∈ l := by
    rw [hget]
    exact List.getElem_mem hd
  rw [goIndexByte, if_pos hmem]
  have hlt : l.indexOf (l.getD d 0) < l.length :=
    List.indexOf_lt_length.mpr hmem
  have hidx : l[l.indexOf (l.getD d 0)] = l.getD d 0 := List.getElem_indexOf hlt
  have hinj := List.nodup_iff_injective_getElem.mp hnd
  have hfin : (⟨l.indexOf (l.getD d 0), hlt⟩ : Fin l.length) = ⟨d, hd⟩ :=
    hinj (hidx.trans hget)
  exact congrArg Fin.val hfin

/-- The fold of `debase` over in-range mapped digits computes the digit
value exactly, with none of its `mod 2 ^ 64` reductions truncating,
provided the final value is below `2 ^ 64`. -/
theorem debase_foldVal (i : Idencoder.IDEncoder) (hnd : i.Alphabet.Nodup) :
    ∀ (l : List Nat) (r : Nat), (∀ d ∈ l, d < i.Alphabet.length) →
    foldVal i.Alphabet.length l r < W →
    ((l.map fun c => i.Alphabet.getD c 0).foldl
      (fun result v =>
        (result * i.Alphabet.length % W + goIndexByte i.Alphabet v) % W) (r % W))
    = foldVal i.Alphabet.length l r := by
  intro l
  induction l with
  | nil =>
    intro r _ hlt
    rw [List.map_nil, List.foldl_nil, foldVal_nil] at *
    exact Nat.mod_eq_of_lt hlt
  | cons c l ih =>
    intro r hl hlt
    rw [List.map_cons, List.foldl_cons,
      goIndexByte_getD i.Alphabet hnd c (hl c (List.mem_cons_self c l))]
    have hmod : (r % W * i.Alphabet.length % W + c) % W
        = (r * i.Alphabet.length + c) % W := by
      rw [Nat.mod_add_mod]
      exact ((Nat.mod_modEq r W).mul_right i.Alphabet.length).add_right c
    rw [hmod]
    rw [foldVal_cons] at hlt ⊢
    exact ih (r * i.Alphabet.length + c)
      (fun d hd => hl d (List.mem_cons_of_mem c hd)) hlt

/-- Characterizes a successful `enbase`: the body is the zero-symbol padding
followed by the mapped digits. -/
theorem enbase_eq_some (i : Idencoder.IDEncoder) (hK : 2 ≤ i.Alphabet.length)
    (x L : Nat) (body : List Nat) (h : i.enbase x L = some body) :
    body = List.replicate (usub64 L (natDigits i.Alphabet.length x).length)
        (i.Alphabet.getD 0 0)
      ++ (natDigits i.Alphabet.length x).map (fun c => i.Alphabet.getD c 0) := by
  rw [IDEncoder.enbase, if_pos hK, leftPad, times] at h
  by_cases hlt :
      usub64 L ((natDigits i.Alphabet.length x).map
        (fun c => i.Alphabet.getD c 0)).length < 2 ^ 63
  · rw [if_pos hlt, Option.map_some', Option.some_inj] at h
    rw [← h, List.length_map]
  · rw [if_neg hlt] at h
    exact Option.noConfusion h

/-- `debase` undoes `enbase`: if `enbase x L` returns a body then `debase`
of that body is `x`, for a duplicate-free alphabet of at least two symbols
and `x` in the `uint64` range (padding contributes nothing and no wrap
occurs). -/
theorem debase_enbase (i : Idencoder.IDEncoder) (hnd : i.Alphabet.Nodup)
    (hK : 2 ≤ i.Alphabet.length) (x L : Nat) (hx : x < W) (body : List Nat)
    (h : i.enbase x L = some body) : i.debase body = x := by
  have hshape := enbase_eq_some i hK x L body h
  set m := usub64 L (natDigits i.Alphabet.length x).length with hm
  have hrepl : List.replicate m (i.Alphabet.getD 0 0)
      = (List.replicate m 0).map (fun c => i.Alphabet.getD c 0) := by
    rw [List.map_replicate]
  have hbody : body = ((List.replicate m 0 ++ natDigits i.Alphabet.length x).map
      (fun c => i.Alphabet.getD c 0)) := by
    rw [List.map_append, ← hrepl, hshape]
  have hvals : foldVal i.Alphabet.length
      (List.replicate m 0 ++ natDigits i.Alphabet.length x) 0 = x := by
    rw [foldVal_append, foldVal_replicate_zero, foldVal_natDigits _ hK]
  have hdig : ∀ d ∈ List.replicate m 0 ++ natDigits i.Alphabet.length x,
      d < i.Alphabet.length := by
    intro d hd
    rcases List.mem_append.mp hd with hz | hdd
    · rw [List.eq_of_mem_replicate hz]; omega
    · exact natDigits_lt_base i.Alphabet.length hK x d hdd
  have h0 := debase_foldVal i hnd (List.replicate m 0 ++ natDigits i.Alphabet.length x)
    0 hdig (by rw [hvals]; exact hx)
  rw [Nat.zero_mod] at h0
  rw [hbody, IDEncoder.debase, h0, hvals]

/-- A successful `checksum` is the alphabet symbol at `n mod modulus`. -/
theorem checksum_spec (i : Idencoder.IDEncoder) (n : Nat) (hM : i.Checksum ≠ 0)
    (hix : n % i.Checksum < i.Alphabet.length) :
    i.checksum n = some (i.Alphabet.getD (n % i.Checksum) 0) := by
  rw [IDEncoder.checksum, if_neg hM, List.getElem?_eq_getElem hix,
    List.getD_eq_getElem?_getD, List.getElem?_eq_getElem hix, Option.getD_some]

/-- Under a valid modulus (positive, at most the alphabet size) `checksum`
always succeeds. -/
theorem checksum_isSome (i : Idencoder.IDEncoder) (n : Nat) (hM : i.Checksum ≠ 0)
    (hMK : i.Checksum ≤ i.Alphabet.length) : (i.checksum n).isSome = true := by
  rw [checksum_spec i n hM (lt_of_lt_of_le (Nat.mod_lt n (by omega)) hMK)]
  rfl

/-- A successful `checksum` value is an alphabet symbol. -/
theorem checksum_mem (i : Idencoder.IDEncoder) (n c : Nat)
    (h : i.checksum n = some c) : c ∈ i.Alphabet := by
  rw [IDEncoder.checksum] at h
  by_cases hM : i.Checksum = 0
  · rw [if_pos hM] at h
    exact Option.noConfusion h
  · rw [if_neg hM] at h
    exact List.getElem?_mem h

/-- Characterizes a successful `Encode`: a checksum head (as a Go string)
prepended to a successful `enbase` body, with the constant flag `true`. -/
theorem encode_eq_some (i : Idencoder.IDEncoder) (n L : Nat)
    (s : List Nat) (flag : Bool) (h : i.Encode n L = some (s, flag)) :
    ∃ c body, i.checksum n = some c
      ∧ i.enbase (i.scramble n) L = some body
      ∧ s = goStringOfByte c ++ body ∧ flag = true := by
  rw [IDEncoder.Encode] at h
  cases hc : i.checksum n with
  | none => rw [hc] at h; exact Option.noConfusion h
  | some c =>
    rw [hc] at h
    cases hb : i.enbase (i.scramble n) L with
    | none => rw [hb] at h; exact Option.noConfusion h
    | some body =>
      rw [hb] at h
      simp at h
      exact ⟨c, body, rfl, rfl, h.1.symm, h.2⟩

/-- Unfolds `Decode` on a non-empty input. -/
theorem decode_cons (i : Idencoder.IDEncoder) (b0 : Nat) (rest : List Nat) :
    i.Decode (b0 :: rest)
      = (i.checksum (i.scramble (i.debase rest))).map
          (fun c => (i.scramble (i.debase rest), c == b0)) := rfl

/-! ### Claim theorems -/

/-- Claim C1: the claimed round trip `Decode (Encode n L) = (n, true)` for
every `n` and every minLength `L` fails on the code: with the default
configuration it holds at `L = 5`, but `Encode 1 0` panics, because the
natural five-symbol body is longer than the requested minimum length and
`leftPad` computes the pad count `0 - 5` in wrapping `uint64` arithmetic,
so `times` calls `make` with a length near `2 ^ 64`. -/
theorem encode_decode_roundtrip_C1 :
    defaultEncoder.Encode 1 0 = none
    ∧ defaultEncoder.Encode 1 5 = some ([102, 104, 113, 121, 102, 55], true)
    ∧ defaultEncoder.Decode [102, 104, 113, 121, 102, 55] = some (1, true) := by
  decide

/-- Claim C2: when the natural representation is at least as long as
minLength, `enbase` is claimed to return it unpadded without crashing.
With the default alphabet, `enbase 31 2` (natural length exactly 2) does
return the unpadded two symbols, but `enbase 31 0` (natural length 2 above
minLength 0) panics through the `uint64` underflow `0 - 2` in `leftPad`. -/
theorem enbase_no_padding_C2 :
    defaultEncoder.enbase 31 0 = none
    ∧ defaultEncoder.enbase 31 2 = some [102, 51] := by
  decide

/-- Claim C3: `Encode` is claimed to always return success flag `true` with
no per-call failure mode; it does return `true` whenever it returns, but
`Encode 2 0` panics in `leftPad` before returning anything. -/
theorem encode_success_flag_C3 :
    defaultEncoder.Encode 2 5 = some ([113, 114, 98, 50, 98, 114], true)
    ∧ defaultEncoder.Encode 2 0 = none := by
  decide

/-- Claim C4, counterexample: `Decode` of the empty string panics
(`b[1:]` on an empty slice) rather than reporting a recoverable failure,
and `Decode "3"` (one character, the zero symbol of the default alphabet)
returns the success result `(0, true)` rather than a failure. -/
theorem decode_short_counterexample_C4 :
    defaultEncoder.Decode [] = none
    ∧ defaultEncoder.Decode [51] = some (0, true) := by
  decide

/-- Claim C4 as amended: `Decode` of the empty string panics, and `Decode`
of any one-byte string returns value `0` with the flag comparing the single
byte against the zero symbol `alphabet[0]` — a success result exactly when
the byte is the zero symbol. -/
theorem decode_short_amended_C4 (i : IDEncoder) (b : Nat)
    (hM : i.Checksum ≠ 0) (hA : 0 < i.Alphabet.length) :
    i.Decode [] = none
    ∧ i.Decode [b] = some (0, (i.Alphabet.getD 0 0 == b)) := by
  constructor
  · rfl
  · have hdeb : i.debase [] = 0 := rfl
    rw [decode_cons i b [], hdeb, scramble_zero i,
      checksum_spec i 0 hM (by rw [Nat.zero_mod]; exact hA), Nat.zero_mod]
    rfl

/-- Witness for the amended C4 at the default configuration and byte 51. -/
theorem decode_short_amended_C4_witness :
    defaultEncoder.Decode [] = none
    ∧ defaultEncoder.Decode [51]
        = some (0, (defaultEncoder.Alphabet.getD 0 0 == 51)) :=
  decode_short_amended_C4 defaultEncoder 51 (by decide) (by decide)

/-- Claim C5, counterexample: the byte 33 is not in the default alphabet,
yet `Decode "j!"` does not report any hard error: `IndexByte` yields `-1`,
converted to `2 ^ 64 - 1`, and the decode even reports success. -/
theorem decode_bad_symbol_counterexample_C5 :
    DefaultAlphabet.contains 33 = false
    ∧ defaultEncoder.Decode [106, 33] = some (2 ^ 64 - 1, true) := by
  decide

/-- Claim C5 as amended: under a valid configuration `Decode` of any
non-empty string returns a numeric result, whatever bytes the tail holds —
out-of-alphabet bytes are folded in as `2 ^ 64 - 1` instead of raising a
hard decode error. -/
theorem decode_total_amended_C5 (i : IDEncoder) (b0 : Nat) (rest : List Nat)
    (hM : i.Checksum ≠ 0) (hMK : i.Checksum ≤ i.Alphabet.length) :
    (i.Decode (b0 :: rest)).isSome = true := by
  rw [decode_cons, Option.isSome_map']
  exact checksum_isSome i _ hM hMK

/-- Witness for the amended C5 at the out-of-alphabet input of the
counterexample. -/
theorem decode_total_amended_C5_witness :
    (defaultEncoder.Decode [106, 33]).isSome = true :=
  decode_total_amended_C5 defaultEncoder 106 [33] (by decide) (by decide)

/-- Claim C6: for every block size below 64 and every `uint64` value,
`scramble` is an involution: `scramble (scramble n) = n`. -/
theorem scramble_involution_C6 (i : IDEncoder) (n : Nat)
    (hB : i.BlockSize < 64) (hn : n < W) : i.scramble (i.scramble n) = n :=
  scramble_involutive i n hB hn

/-- Witness for C6 at the default configuration. -/
theorem scramble_involution_C6_witness :
    defaultEncoder.scramble (defaultEncoder.scramble 123456789) = 123456789 :=
  scramble_involution_C6 defaultEncoder 123456789 (by decide) (by decide)

/-- Claim C7, counterexample: for the distinct inputs 1 and 2 at
minLength 0, the two `Encode` calls produce identical results — neither
produces a string at all, both panic in `leftPad` — so `Encode` is not
injective as a total function of the claimed domain. -/
theorem encode_collision_counterexample_C7 :
    defaultEncoder.Encode 1 0 = defaultEncoder.Encode 2 0
    ∧ defaultEncoder.Encode 2 0 = none := by
  decide

/-- Claim C7 as amended: under one fixed valid configuration and fixed
minLength, whenever `Encode` returns strings for two distinct inputs in
the `uint64` range, the strings differ. -/
theorem encode_injective_amended_C7 (i : IDEncoder) (L n1 n2 : Nat)
    (hnd : i.Alphabet.Nodup) (hK : 2 ≤ i.Alphabet.length)
    (hB : i.BlockSize < 64) (hn1 : n1 < W) (hn2 : n2 < W) (hne : n1 ≠ n2)
    (p1 p2 : List Nat × Bool)
    (h1 : i.Encode n1 L = some p1) (h2 : i.Encode n2 L = some p2) :
    p1.1 ≠ p2.1 := by
  obtain ⟨s1, f1⟩ := p1
  obtain ⟨s2, f2⟩ := p2
  obtain ⟨c1, body1, hc1, hb1, hs1, _⟩ := encode_eq_some i n1 L s1 f1 h1
  obtain ⟨c2, body2, hc2, hb2, hs2, _⟩ := encode_eq_some i n2 L s2 f2 h2
  simp only
  intro heq
  rw [hs1, hs2] at heq
  have hbody : body1 = body2 := by
    rw [goStringOfByte, goStringOfByte] at heq
    by_cases hx1 : c1 < 128 <;> by_cases hx2 : c2 < 128
    · rw [if_pos hx1, if_pos hx2, List.singleton_append,
        List.singleton_append] at heq
      injection heq
    · rw [if_pos hx1, if_neg hx2, List.singleton_append, List.cons_append,
        List.cons_append, List.nil_append] at heq
      injection heq with hh _
      omega
    · rw [if_neg hx1, if_pos hx2, List.singleton_append, List.cons_append,
        List.cons_append, List.nil_append] at heq
      injection heq with hh _
      omega
    · rw [if_neg hx1, if_neg hx2, List.cons_append, List.cons_append,
        List.nil_append, List.cons_append, List.cons_append,
        List.nil_append] at heq
      injection heq with _ htail
      injection htail
  have hd1 : i.debase body1 = i.scramble n1 :=
    debase_enbase i hnd hK _ L (scramble_lt i n1 hn1) body1 hb1
  have hd2 : i.debase body2 = i.scramble n2 :=
    debase_enbase i hnd hK _ L (scramble_lt i n2 hn2) body2 hb2
  have hss : i.scramble n1 = i.scramble n2 := by rw [← hd1, ← hd2, hbody]
  have hnn := congrArg i.scramble hss
  rw [scramble_involutive i n1 hB hn1, scramble_involutive i n2 hB hn2] at hnn
  exact hne hnn

/-- Witness for the amended C7: the encodings of 1 and 2 at minLength 5
differ. -/
theorem encode_injective_amended_C7_witness :
    decide (([102, 104, 113, 121, 102, 55] : List Nat)
      = [113, 114, 98, 50, 98, 114]) = false :=
  decide_eq_false (encode_injective_amended_C7 defaultEncoder 5 1 2 (by decide)
    (by decide) (by decide) (by decide) (by decide) (by decide)
    ([102, 104, 113, 121, 102, 55], true) ([113, 114, 98, 50, 98, 114], true)
    (by decide) (by decide))

/-- Claim C8: bits of `scramble n` at positions at or above the block size
equal the corresponding bits of `n`; each bit at a position `k` below the
block size `B` equals bit `B - k - 1` of `n`; and with `B = 0` the function
is the identity. -/
theorem scramble_bits_C8 (i : IDEncoder) (n : Nat) (hB : i.BlockSize < 64)
    (hn : n < W) :
    (∀ k, i.BlockSize ≤ k → (i.scramble n).testBit k = n.testBit k)
    ∧ (∀ k, k < i.BlockSize →
        (i.scramble n).testBit k = n.testBit (i.BlockSize - k - 1))
    ∧ (i.BlockSize = 0 → i.scramble n = n) := by
  refine ⟨?_, ?_, ?_⟩
  · intro k hk
    rw [scramble_testBit i n hB hn k, if_neg (by omega)]
  · intro k hk
    rw [scramble_testBit i n hB hn k, if_pos hk]
    congr 1
    omega
  · intro h0
    apply Nat.eq_of_testBit_eq
    intro k
    rw [scramble_testBit i n hB hn k, if_neg (by omega)]

/-- Witness for C8: bit 23 of `scramble 1` is bit 0 of the input. -/
theorem scramble_bits_C8_witness :
    (defaultEncoder.scramble 1).testBit 23
      = (1 : Nat).testBit (defaultEncoder.BlockSize - 23 - 1) :=
  (scramble_bits_C8 defaultEncoder 1 (by decide) (by decide)).2.1 23 (by decide)

/-- Claim C9, counterexample: the claim fails on a valid configuration with
non-ASCII alphabet bytes.  With alphabet `[194, 130]`, modulus 2, block
size 0 (duplicate-free, two symbols, modulus at most the alphabet size,
block size below 64), `Encode 0 1` succeeds with the two-byte UTF-8 head
`[195, 130]` followed by the body `[194]`.  Replacing the head by the other
alphabet symbol 194 — at the byte level (first byte 195 becomes 194) or at
the character level (the first character becomes the one-byte symbol 194) —
makes `Decode` report success, not `ok = false` as claimed. -/
theorem checksum_corruption_counterexample_C9 :
    nonAsciiEncoder.Encode 0 1 = some ([195, 130, 194], true)
    ∧ nonAsciiEncoder.Alphabet.contains 194 = true
    ∧ ((194 : Nat) == 195) = false
    ∧ nonAsciiEncoder.Decode [194, 130, 194] = some (2, true)
    ∧ nonAsciiEncoder.Decode [194, 194] = some (0, true) := by
  decide

/-- Claim C9 as amended: restricted to alphabets of single-byte symbols
(every byte below 128, so that the Go conversion `string(byte)` emits the
byte itself), replacing the checksum head of a successfully encoded string
by any other alphabet symbol makes `Decode` return the original value with
flag `false`. -/
theorem checksum_corruption_C9 (i : IDEncoder) (n L hd0 a : Nat)
    (tl : List Nat) (hnd : i.Alphabet.Nodup) (hK : 2 ≤ i.Alphabet.length)
    (hB : i.BlockSize < 64) (hM : 0 < i.Checksum)
    (hMK : i.Checksum ≤ i.Alphabet.length)
    (hascii : ∀ b ∈ i.Alphabet, b < 128) (hn : n < W)
    (henc : i.Encode n L = some (hd0 :: tl, true))
    (ha : a ∈ i.Alphabet) (hne : a ≠ hd0) :
    i.Decode (a :: tl) = some (n, false) := by
  obtain ⟨c, body, hc, hb, hs, _⟩ := encode_eq_some i n L (hd0 :: tl) true henc
  have hcmem : c ∈ i.Alphabet := checksum_mem i n c hc
  have hc128 : c < 128 := hascii c hcmem
  rw [goStringOfByte, if_pos hc128, List.singleton_append] at hs
  injection hs with hhd htl
  have hdeb : i.debase tl = i.scramble n := by
    rw [htl]
    exact debase_enbase i hnd hK _ L (scramble_lt i n hn) body hb
  rw [decode_cons, hdeb, scramble_involutive i n hB hn, hc, Option.map_some']
  have hba : (c == a) = false := by
    rw [beq_eq_false_iff_ne]
    intro hca
    exact hne (hhd.trans hca).symm
  rw [hba]

/-- Witness for C9: flipping the head of `Encode 1 5` from the checksum
symbol 102 to the alphabet symbol 51 makes `Decode` return `(1, false)`. -/
theorem checksum_corruption_C9_witness :
    defaultEncoder.Decode [51, 104, 113, 121, 102, 55] = some (1, false) :=
  checksum_corruption_C9 defaultEncoder 1 5 102 51 [104, 113, 121, 102, 55]
    (by decide) (by decide) (by decide) (by decide) (by decide) (by decide)
    (by decide) (by decide) (by decide) (by decide)

/-- Claim C10: `debase` wraps modulo `2 ^ 64` and is therefore not
injective on alphabet strings: the one-symbol string for 1 and the
13-symbol string for `2 ^ 64 + 1` are distinct, consist of default-alphabet
symbols only, debase to the same value, and `Decode` accepts both with the
same decoded value and no error. -/
theorem debase_collision_C10 :
    (([102] : List Nat)
      == [106, 109, 51, 122, 118, 121, 100, 114, 118, 119, 55, 53, 112])
      = false
    ∧ List.all [102] DefaultAlphabet.contains = true
    ∧ List.all [106, 109, 51, 122, 118, 121, 100, 114, 118, 119, 55, 53, 112]
        DefaultAlphabet.contains = true
    ∧ defaultEncoder.debase [102]
        = defaultEncoder.debase
            [106, 109, 51, 122, 118, 121, 100, 114, 118, 119, 55, 53, 112]
    ∧ defaultEncoder.Decode [115, 102] = some (8388608, true)
    ∧ defaultEncoder.Decode
        [115, 106, 109, 51, 122, 118, 121, 100, 114, 118, 119, 55, 53, 112]
        = some (8388608, true) := by
  decide

end Idencoder
